import Mathlib

/-!
Shallow embedding of the extraction core of taskpane.js (signature-contact-addin).

The source operates on JavaScript strings with regular expressions; here every
operation is modelled on `List Char` (with `String` wrappers) by scanners that
mirror the regex engine: left-to-right scanning, ordered alternatives with
backtracking, greedy optional elements, case-insensitive literal matching where
the source uses the `i` flag. Fuel arguments (always instantiated with the list
length) keep the scanners structurally recursive and kernel-computable.
-/

/-! ## Character classes (JS `\s`, `\d`, `\w`, and the French letter classes) -/

/-- The JavaScript `\s` class (also the set trimmed by `String.prototype.trim`):
tab, LF, VT, FF, CR, space, NBSP, and the Unicode space separators. -/
def isJsSpace (c : Char) : Bool :=
  decide (c.toNat = 9 ∨ c.toNat = 10 ∨ c.toNat = 11 ∨ c.toNat = 12 ∨ c.toNat = 13 ∨
    c.toNat = 32 ∨ c.toNat = 160 ∨ c.toNat = 5760 ∨ (8192 ≤ c.toNat ∧ c.toNat ≤ 8202) ∨
    c.toNat = 8232 ∨ c.toNat = 8233 ∨ c.toNat = 8239 ∨ c.toNat = 8287 ∨
    c.toNat = 12288 ∨ c.toNat = 65279)

/-- JS `\d`: the ASCII digits 0-9. -/
def isDigitCh (c : Char) : Bool :=
  decide (48 ≤ c.toNat ∧ c.toNat ≤ 57)

/-- The class `[1-9]` of the phone regex. -/
def isNonZeroDigit (c : Char) : Bool :=
  decide (49 ≤ c.toNat ∧ c.toNat ≤ 57)

/-- JS `\w` (used by the word-boundary assertion `\b`): `[A-Za-z0-9_]`. -/
def isWordCh (c : Char) : Bool :=
  decide ((65 ≤ c.toNat ∧ c.toNat ≤ 90) ∨ (97 ≤ c.toNat ∧ c.toNat ≤ 122) ∨
    (48 ≤ c.toNat ∧ c.toNat ≤ 57) ∨ c.toNat = 95)

/-- The separator class `[\s.\-]` of the phone regex; also the class
`[.\-\s]` removed by `normalizePhone`. -/
def isSepCh (c : Char) : Bool :=
  c == '.' || c == '-' || isJsSpace c

/-- Case canonicalization used for the `i` flag on the source's regexes:
ASCII A-Z and the Latin-1 accented capitals map to their lowercase forms
(matching the JS canonicalization on every character these regexes compare). -/
def toLowerChar (c : Char) : Char :=
  match c with
  | 'A' => 'a' | 'B' => 'b' | 'C' => 'c' | 'D' => 'd' | 'E' => 'e' | 'F' => 'f'
  | 'G' => 'g' | 'H' => 'h' | 'I' => 'i' | 'J' => 'j' | 'K' => 'k' | 'L' => 'l'
  | 'M' => 'm' | 'N' => 'n' | 'O' => 'o' | 'P' => 'p' | 'Q' => 'q' | 'R' => 'r'
  | 'S' => 's' | 'T' => 't' | 'U' => 'u' | 'V' => 'v' | 'W' => 'w' | 'X' => 'x'
  | 'Y' => 'y' | 'Z' => 'z'
  | 'À' => 'à' | 'Â' => 'â' | 'Ä' => 'ä' | 'É' => 'é' | 'È' => 'è' | 'Ê' => 'ê'
  | 'Ë' => 'ë' | 'Ï' => 'ï' | 'Î' => 'î' | 'Ô' => 'ô' | 'Ö' => 'ö' | 'Ù' => 'ù'
  | 'Û' => 'û' | 'Ü' => 'ü' | 'Ç' => 'ç'
  | _ => c

/-- The capitalized-first class `[A-ZÀÂÄÉÈÊËÏÎÔÖÙÛÜÇ]` of `guessFullName`. -/
def isUpperFr (c : Char) : Bool :=
  (decide (65 ≤ c.toNat) && decide (c.toNat ≤ 90)) ||
  c == 'À' || c == 'Â' || c == 'Ä' || c == 'É' || c == 'È' || c == 'Ê' || c == 'Ë' ||
  c == 'Ï' || c == 'Î' || c == 'Ô' || c == 'Ö' || c == 'Ù' || c == 'Û' || c == 'Ü' || c == 'Ç'

/-- The tail class `[a-zàâäéèêëïîôöùûüç'\-]` of `guessFullName`. -/
def isLowerFrTail (c : Char) : Bool :=
  (decide (97 ≤ c.toNat) && decide (c.toNat ≤ 122)) ||
  c == 'à' || c == 'â' || c == 'ä' || c == 'é' || c == 'è' || c == 'ê' || c == 'ë' ||
  c == 'ï' || c == 'î' || c == 'ô' || c == 'ö' || c == 'ù' || c == 'û' || c == 'ü' || c == 'ç' ||
  c == '\'' || c == '-'

/-! ## Generic string machinery -/

/-- Split a list at every character satisfying `p` (the separators are dropped,
empty pieces are kept), as JS `split` on a single-character pattern. -/
def splitP (p : Char → Bool) : List Char → List (List Char)
  | [] => [[]]
  | c :: t =>
    if p c then [] :: splitP p t
    else
      match splitP p t with
      | [] => [[c]]
      | l :: ls => (c :: l) :: ls

/-- Remove a trailing run of JS whitespace. -/
def trimRightL : List Char → List Char
  | [] => []
  | c :: t =>
    match trimRightL t with
    | [] => if isJsSpace c then [] else [c]
    | l => c :: l

/-- JS `String.prototype.trim`: remove leading and trailing whitespace. -/
def trimL (s : List Char) : List Char :=
  trimRightL (s.dropWhile isJsSpace)

/-- Case-insensitive literal prefix test (`pat` matched against the head of the
text, both sides canonicalized by `toLowerChar`). -/
def ciStarts : List Char → List Char → Bool
  | [], _ => true
  | _ :: _, [] => false
  | p :: ps, c :: cs => (toLowerChar c == toLowerChar p) && ciStarts ps cs

/-- Find the earliest case-insensitive occurrence of `cls`; on success return
the part before it, the matched chunk itself and the part after it. -/
def splitAtCi (cls : List Char) : List Char → Option (List Char × List Char × List Char)
  | [] => none
  | c :: t =>
    if ciStarts cls (c :: t) then some ([], (c :: t).take cls.length, (c :: t).drop cls.length)
    else
      match splitAtCi cls t with
      | some (a, ch, r) => some (c :: a, ch, r)
      | none => none

/-- One global-replace pass of `/OPEN[\s\S]*?CLOSE/gi` with the empty
replacement, the open marker being `o :: opn` and the close marker `cls`:
scan left to right; at an open marker with a later close marker, delete through
the earliest close and resume after it (the regex resumes after a match and
does not rescan); otherwise keep the character. -/
def stripLoop (o : Char) (opn cls : List Char) : Nat → List Char → List Char
  | _, [] => []
  | 0, s => s
  | fuel + 1, c :: t =>
    if ciStarts (o :: opn) (c :: t) then
      match splitAtCi cls (List.drop opn.length t) with
      | some (_, _, rest) => stripLoop o opn cls fuel rest
      | none => c :: stripLoop o opn cls fuel t
    else c :: stripLoop o opn cls fuel t

/-- The inner `[\s\S]*?` parts of the blocks that the same scan matches
(used to speak about the original contents of style/script blocks). -/
def blockContentsLoop (o : Char) (opn cls : List Char) : Nat → List Char → List (List Char)
  | _, [] => []
  | 0, _ => []
  | fuel + 1, c :: t =>
    if ciStarts (o :: opn) (c :: t) then
      match splitAtCi cls (List.drop opn.length t) with
      | some (mid, _, rest) => mid :: blockContentsLoop o opn cls fuel rest
      | none => blockContentsLoop o opn cls fuel t
    else blockContentsLoop o opn cls fuel t

/-- `.replace(/<style[\s\S]*?<\/style>/gi, "")`. -/
def stripStyleL (s : List Char) : List Char :=
  stripLoop '<' "style".data "</style>".data s.length s

/-- `.replace(/<script[\s\S]*?<\/script>/gi, "")`. -/
def stripScriptL (s : List Char) : List Char :=
  stripLoop '<' "script".data "</script>".data s.length s

/-- Contents of the `<style>...</style>` blocks of the original text. -/
def styleContents (s : String) : List (List Char) :=
  blockContentsLoop '<' "style".data "</style>".data s.data.length s.data

/-- Contents of the `<script>...</script>` blocks of the original text. -/
def scriptContents (s : String) : List (List Char) :=
  blockContentsLoop '<' "script".data "</script>".data s.data.length s.data

/-- After a non-`>` character was seen, find the first `>` and return what
follows it (the tail of a `<[^>]+>` match). -/
def tagClose : List Char → Option (List Char)
  | [] => none
  | c :: t => if c == '>' then some t else tagClose t

/-- Given the characters after a `<`, match `[^>]+>`: at least one non-`>`
character, then the first `>`; return what follows the `>`. -/
def tagRest : List Char → Option (List Char)
  | [] => none
  | c :: t => if c == '>' then none else tagClose t

/-- `.replace(/<[^>]+>/g, "\n")`: every tag becomes one newline; a `<` that
does not open a match is kept. -/
def tagLoop : Nat → List Char → List Char
  | _, [] => []
  | 0, s => s
  | fuel + 1, c :: t =>
    if c == '<' then
      match tagRest t with
      | some rest => '\n' :: tagLoop fuel rest
      | none => c :: tagLoop fuel t
    else c :: tagLoop fuel t

/-- `.replace(/<[^>]+>/g, "\n")` at fuel `s.length`. -/
def stripTagsL (s : List Char) : List Char :=
  tagLoop s.length s

/-- One global replace of the literal `pat` by `rep` (case-sensitive, scanning
left to right, resuming after each replacement). -/
def replaceLit (pat rep : List Char) : Nat → List Char → List Char
  | _, [] => []
  | 0, s => s
  | fuel + 1, c :: t =>
    if pat.isPrefixOf (c :: t) && !pat.isEmpty then
      rep ++ replaceLit pat rep fuel (List.drop (pat.length - 1) t)
    else c :: replaceLit pat rep fuel t

/-- `.replace(/&nbsp;/g, " ")`. -/
def decodeNbspL (s : List Char) : List Char := replaceLit "&nbsp;".data " ".data s.length s

/-- `.replace(/&amp;/g, "&")`. -/
def decodeAmpL (s : List Char) : List Char := replaceLit "&amp;".data "&".data s.length s

/-- `.replace(/&lt;/g, "<")`. -/
def decodeLtL (s : List Char) : List Char := replaceLit "&lt;".data "<".data s.length s

/-- `.replace(/&gt;/g, ">")`. -/
def decodeGtL (s : List Char) : List Char := replaceLit "&gt;".data ">".data s.length s

/-- The four entity replacements of `htmlToText`, in source order:
`&nbsp;`→space, `&amp;`→`&`, `&lt;`→`<`, `&gt;`→`>`. -/
def decodeEntitiesL (s : List Char) : List Char :=
  decodeGtL (decodeLtL (decodeAmpL (decodeNbspL s)))

/-- `.replace(/\n{2,}/g, "\n")`: collapse every run of two or more newlines
into a single newline. -/
def collapseNlL : List Char → List Char
  | [] => []
  | [c] => [c]
  | c1 :: c2 :: rest =>
    if c1 == '\n' && c2 == '\n' then collapseNlL (c2 :: rest)
    else c1 :: collapseNlL (c2 :: rest)

/-- No two adjacent newlines. -/
def noAdjNl : List Char → Bool
  | c1 :: c2 :: rest => !(c1 == '\n' && c2 == '\n') && noAdjNl (c2 :: rest)
  | _ => true

/-- `htmlToText` of taskpane.js on `List Char`: strip style blocks, strip
script blocks, replace the remaining tags by newlines, decode the four
entities, collapse newline runs, trim. -/
def htmlToTextL (s : List Char) : List Char :=
  trimL (collapseNlL (decodeEntitiesL (stripTagsL (stripScriptL (stripStyleL s)))))

/-- `htmlToText` of taskpane.js. -/
def htmlToText (html : String) : String :=
  String.mk (htmlToTextL html.data)

/-! ## The phone regex `/(?:\+33\s?|\b0)(?:[1-9])(?:[\s.\-]?\d{2}){4}\b/g` -/

/-- The `\b` assertion after a digit: satisfied at end of input or before a
non-word character. -/
def boundaryAfter : List Char → Bool
  | [] => true
  | c :: _ => !isWordCh c

/-- The `\b` assertion before the `0` of the second alternative, given the
character preceding the scan position (none at the start of the text). -/
def boundaryBefore : Option Char → Bool
  | none => true
  | some c => !isWordCh c

/-- Match `(?:[\s.\-]?\d{2}){n}\b`: each group greedily tries the optional
separator first and backtracks to the separator-less reading if the rest
fails; the trailing word boundary is checked after the last group.
Returns (consumed characters, rest). -/
def matchGroups : Nat → List Char → Option (List Char × List Char)
  | 0, s => if boundaryAfter s then some ([], s) else none
  | n + 1, s =>
    let withSep : Option (List Char × List Char) :=
      match s with
      | c :: c1 :: c2 :: rest =>
        if isSepCh c && isDigitCh c1 && isDigitCh c2 then
          match matchGroups n rest with
          | some (m, r) => some (c :: c1 :: c2 :: m, r)
          | none => none
        else none
      | _ => none
    match withSep with
    | some r => some r
    | none =>
      match s with
      | c1 :: c2 :: rest =>
        if isDigitCh c1 && isDigitCh c2 then
          match matchGroups n rest with
          | some (m, r) => some (c1 :: c2 :: m, r)
          | none => none
        else none
      | _ => none

/-- Match `[1-9](?:[\s.\-]?\d{2}){4}\b`. -/
def matchD1Groups : List Char → Option (List Char × List Char)
  | [] => none
  | d :: rest =>
    if isNonZeroDigit d then
      match matchGroups 4 rest with
      | some (m, r) => some (d :: m, r)
      | none => none
    else none

/-- Match `\s?[1-9](?:[\s.\-]?\d{2}){4}\b` (what follows the literal `+33`):
the greedy `\s?` consumes one whitespace when the rest then matches, and
backtracks to consuming nothing otherwise. -/
def matchAfter33 : List Char → Option (List Char × List Char)
  | [] => none
  | c :: rest =>
    if isJsSpace c then
      match matchD1Groups rest with
      | some (m, r) => some (c :: m, r)
      | none => matchD1Groups (c :: rest)
    else matchD1Groups (c :: rest)

/-- Try the whole phone regex at one position; `prev` is the character before
the position. The alternation tries `\+33\s?` first, then `\b0`. -/
def matchPhoneAt (prev : Option Char) (s : List Char) : Option (List Char × List Char) :=
  let alt1 : Option (List Char × List Char) :=
    match s with
    | a :: b :: c :: rest =>
      if a == '+' && b == '3' && c == '3' then
        match matchAfter33 rest with
        | some (m, r) => some (a :: b :: c :: m, r)
        | none => none
      else none
    | _ => none
  match alt1 with
  | some r => some r
  | none =>
    match s with
    | a :: rest =>
      if a == '0' && boundaryBefore prev then
        match matchD1Groups rest with
        | some (m, r) => some (a :: m, r)
        | none => none
      else none
    | [] => none

/-- Leftmost match: try every position from left to right and return the
first full match (`text.match(regex)[0]`). -/
def scanPhone : Option Char → List Char → Option (List Char)
  | _, [] => none
  | prev, c :: t =>
    match matchPhoneAt prev (c :: t) with
    | some (m, _) => some m
    | none => scanPhone (some c) t

/-- `normalizePhone` of taskpane.js on `List Char`: remove every `[.\-\s]`
character; if the result starts with `+33` replace that prefix by `0`. -/
def normalizePhoneL (raw : List Char) : List Char :=
  let p := raw.filter (fun c => !isSepCh c)
  if p.take 3 = ['+', '3', '3'] then '0' :: p.drop 3 else p

/-- `normalizePhone` of taskpane.js. -/
def normalizePhone (raw : String) : String :=
  String.mk (normalizePhoneL raw.data)

/-- `extractPhoneFR` of taskpane.js: the first match of the phone regex,
normalized; empty string when there is no match. -/
def extractPhoneFR (text : String) : String :=
  match scanPhone none text.data with
  | some m => normalizePhone (String.mk m)
  | none => ""

/-! ## `guessFullName` of taskpane.js -/

/-- `text.split("\n").map(trim).filter(Boolean)`. -/
def linesOf (s : List Char) : List (List Char) :=
  ((splitP (fun c => c == '\n') s).map trimL).filter (fun l => !l.isEmpty)

/-- `l.split(/\s+/).filter(Boolean)`: the maximal runs of non-whitespace. -/
def tokensOf (l : List Char) : List (List Char) :=
  (splitP isJsSpace l).filter (fun t => !t.isEmpty)

/-- `^[A-ZÀÂÄÉÈÊËÏÎÔÖÙÛÜÇ][a-zàâäéèêëïîôöùûüç'\-]+$` on one token. -/
def isCapToken (t : List Char) : Bool :=
  match t with
  | [] => false
  | c :: rest => isUpperFr c && !rest.isEmpty && rest.all isLowerFrTail

/-- A candidate line qualifies: 2 to 4 tokens, of which at least 2 match the
capitalized-word shape. -/
def lineQualifies (l : List Char) : Bool :=
  let ts := tokensOf l
  decide (2 ≤ ts.length) && decide (ts.length ≤ 4) &&
  decide (2 ≤ (ts.filter isCapToken).length)

/-- `/^(-{2,}|cordialement|bien cordialement|sincèrement|best regards|regards)$/i`
on one (already trimmed) line. -/
def isBoundary (l : List Char) : Bool :=
  (decide (2 ≤ l.length) && l.all (fun c => c == '-')) ||
  l.map toLowerChar == "cordialement".data ||
  l.map toLowerChar == "bien cordialement".data ||
  l.map toLowerChar == "sincèrement".data ||
  l.map toLowerChar == "best regards".data ||
  l.map toLowerChar == "regards".data

/-- `lines.slice(-6)`: the last up-to-6 lines. -/
def tailWindow (lines : List (List Char)) : List (List Char) :=
  lines.drop (lines.length - 6)

/-- The candidate window: the up-to-5 lines after the first signature
boundary when one exists and is not the last line, else the tail window. -/
def windowOf (lines : List (List Char)) : List (List Char) :=
  match lines.findIdx? isBoundary with
  | some i => if i + 1 < lines.length then (lines.drop (i + 1)).take 5 else tailWindow lines
  | none => tailWindow lines

/-- `guessFullName` of taskpane.js: the first qualifying line of the candidate
window, else `fallbackSender || ""`. -/
def guessFullName (text fallbackSender : String) : String :=
  match (windowOf (linesOf text.data)).find? lineQualifies with
  | some l => String.mk l
  | none => if fallbackSender == "" then "" else fallbackSender

/-! ## The contact payload of `createContactOnGraph` and the scan pipeline -/

structure EmailAddressEntry where
  address : String
  name : String
deriving DecidableEq

structure ContactBody where
  givenName : String
  surname : String
  displayName : String
  emailAddresses : List EmailAddressEntry
  businessPhones : List String
deriving DecidableEq

/-- `(displayName || "").split(/\s+/).filter(Boolean)` on a `String`. -/
def tokensOfStr (s : String) : List String :=
  (tokensOf s.data).map String.mk

/-- The JSON body built by `createContactOnGraph` before the HTTP call. -/
def createContactOnGraphBody (displayName email phone : String) : ContactBody :=
  let dn := if displayName == "" then (if email == "" then "Nouveau contact" else email)
            else displayName
  let emails : List EmailAddressEntry :=
    if email == "" then []
    else [⟨email, if displayName == "" then email else displayName⟩]
  let phones : List String := if phone == "" then [] else [phone]
  match tokensOfStr displayName with
  | p0 :: p1 :: rest => ⟨p0, String.intercalate " " (p1 :: rest), dn, emails, phones⟩
  | _ => ⟨"", "", dn, emails, phones⟩

structure SenderIdentity where
  email : String
  name : String
deriving DecidableEq

structure ExtractionResult where
  fullName : String
  phone : String
  email : String
deriving DecidableEq

/-- The pure core of `scanAndFill`: normalize the body, extract the phone and
the name from the plain text (sender display name as fallback), take the
sender email verbatim. -/
def scanAndFill (bodyHtml : String) (sender : SenderIdentity) : ExtractionResult :=
  let text := htmlToText bodyHtml
  ⟨guessFullName text sender.name, extractPhoneFR text, sender.email⟩

/-! ## Valid French phone numbers as structured data (for the claims about
separator-independent extraction) -/

/-- A digit 0-9 as a character. -/
def digitChar (i : Fin 10) : Char := Char.ofNat (48 + i.val)

/-- A digit 1-9 as a character. -/
def nzChar (d : Fin 9) : Char := Char.ofNat (49 + d.val)

/-- One of the three separators the claim allows: dot, space, hyphen. -/
def sepChar (k : Fin 3) : Char :=
  if k.val = 0 then '.' else if k.val = 1 then ' ' else '-'

/-- One two-digit group, with an optional separator before it. -/
structure PhonePair where
  sep : Option (Fin 3)
  hi : Fin 10
  lo : Fin 10

/-- The two spec forms: local `0...`, or `+33` with or without a space. -/
inductive PhoneLead where
  | local0 : PhoneLead
  | plus33 : Bool → PhoneLead

/-- A valid French phone number: a lead, a nonzero digit, four two-digit
groups each with an arbitrary optional separator. -/
structure PhoneRep where
  lead : PhoneLead
  d1 : Fin 9
  p1 : PhonePair
  p2 : PhonePair
  p3 : PhonePair
  p4 : PhonePair

def renderPair (p : PhonePair) : List Char :=
  (match p.sep with | some k => [sepChar k] | none => []) ++
  [digitChar p.hi, digitChar p.lo]

def pairsOf (r : PhoneRep) : List PhonePair := [r.p1, r.p2, r.p3, r.p4]

def renderPairs (ps : List PhonePair) : List Char := (ps.map renderPair).flatten

def digitsOfPairs (ps : List PhonePair) : List Char :=
  (ps.map (fun p => [digitChar p.hi, digitChar p.lo])).flatten

/-- The textual form of a valid number, separators included. -/
def renderPhone (r : PhoneRep) : List Char :=
  (match r.lead with
   | PhoneLead.local0 => ['0']
   | PhoneLead.plus33 sp => ['+', '3', '3'] ++ (if sp then [' '] else [])) ++
  nzChar r.d1 :: renderPairs (pairsOf r)

/-- The canonical local form the spec describes: `0`, the nonzero digit, then
the eight digits, no separators. -/
def canonicalPhone (r : PhoneRep) : String :=
  String.mk ('0' :: nzChar r.d1 :: digitsOfPairs (pairsOf r))

/-- The number 0612345678 written without separators. -/
def phoneRepEx : PhoneRep :=
  ⟨PhoneLead.local0, ⟨5, by decide⟩,
   ⟨none, 1, 2⟩, ⟨none, 3, 4⟩, ⟨none, 5, 6⟩, ⟨none, 7, 8⟩⟩

/-! ## Whole-block deletion, as a relation (for the claim about style/script
stripping) -/

/-- `StripSpec o opn cls s r`: `r` is `s` with zero or more whole blocks
deleted, a block being a case-insensitive copy of the open marker `o :: opn`,
then any characters, then a case-insensitive copy of the close marker `cls`. -/
inductive StripSpec (o : Char) (opn cls : List Char) : List Char → List Char → Prop where
  | nil : StripSpec o opn cls [] []
  | keep : (c : Char) → (s r : List Char) → StripSpec o opn cls s r →
      StripSpec o opn cls (c :: s) (c :: r)
  | dele : (op mid cl s r : List Char) →
      op.map toLowerChar = (o :: opn).map toLowerChar →
      cl.map toLowerChar = cls.map toLowerChar →
      StripSpec o opn cls s r →
      StripSpec o opn cls (op ++ (mid ++ (cl ++ s))) r

/-! ## Theorems -/

/-- Claim C1: for the given body HTML and sender identity, the scan pipeline
(htmlToText, then extractPhoneFR and guessFullName over the plain text with
the sender name as fallback, sender email verbatim) yields exactly
fullName "Marie Curie", phone "0612345678", email "x@y.com". -/
theorem scanAndFill_endToEnd :
    scanAndFill "<p>Bonjour,</p><p>Mon numero: 06.12.34.56.78</p><p>--</p><p>Marie Curie</p>"
      ⟨"x@y.com", "Mx"⟩ = ⟨"Marie Curie", "0612345678", "x@y.com"⟩ := by decide

theorem find?_first {α : Type} (p : α → Bool) :
    ∀ (l : List α) (i : Nat) (h : i < l.length),
      p (l.get ⟨i, h⟩) = true →
      (∀ j, (hj : j < l.length) → j < i → p (l.get ⟨j, hj⟩) = false) →
      l.find? p = some (l.get ⟨i, h⟩)
  | [], i, h => by simp at h
  | a :: t, 0, h => by
    intro hp _
    simp only [List.get] at hp ⊢
    exact List.find?_cons_of_pos _ hp
  | a :: t, i + 1, h => by
    intro hp he
    have ha : p a = false := he 0 (by omega) (by omega)
    rw [List.find?_cons_of_neg _ (by simp [ha])]
    exact find?_first p t i (by simpa using h) hp
      (fun j hj hji => he (j + 1) (by omega) (by omega))

/-- Claim C4: whenever some line of the candidate window qualifies (2-4 tokens,
at least 2 of capitalized shape), guessFullName returns the first qualifying
line in window order, verbatim, and never a later one. -/
theorem guessFullName_firstQualifying : ∀ (text fb : String) (i : Nat)
    (h : i < (windowOf (linesOf text.data)).length),
    lineQualifies ((windowOf (linesOf text.data)).get ⟨i, h⟩) = true →
    (∀ j, (hj : j < (windowOf (linesOf text.data)).length) → j < i →
      lineQualifies ((windowOf (linesOf text.data)).get ⟨j, hj⟩) = false) →
    guessFullName text fb = String.mk ((windowOf (linesOf text.data)).get ⟨i, h⟩) := by
  intro text fb i h hp he
  unfold guessFullName
  rw [find?_first lineQualifies _ i h hp he]

theorem guessFullName_firstQualifying_witness :
    lineQualifies ((windowOf (linesOf ("Ann Bee\nx" : String).data)).headD []) = true ∧
    guessFullName "Ann Bee\nx" "z" = "Ann Bee" := by
  refine ⟨by decide, ?_⟩
  have h := guessFullName_firstQualifying "Ann Bee\nx" "z" 0 (by decide) (by decide)
    (fun j hj hji => absurd hji (by omega))
  rw [h]
  decide

/-- Claim C5 (amended): if the first signature-boundary line is exactly
"Cordialement", it is not the last line, and "Jean Dupont" is the first
qualifying line of the up-to-5 lines after it, then guessFullName returns
"Jean Dupont" for any fallback. -/
theorem guessFullName_cordialement : ∀ (text fb : String) (i : Nat),
    (linesOf text.data).findIdx? isBoundary = some i →
    (linesOf text.data)[i]? = some "Cordialement".data →
    i + 1 < (linesOf text.data).length →
    (((linesOf text.data).drop (i + 1)).take 5).find? lineQualifies =
      some "Jean Dupont".data →
    guessFullName text fb = "Jean Dupont" := by
  intro text fb i h1 _ h3 h4
  unfold guessFullName windowOf
  rw [h1]
  simp only [h3, if_true, h4]

theorem guessFullName_cordialement_witness :
    (linesOf ("Bonjour\nCordialement\nJean Dupont" : String).data).findIdx? isBoundary = some 1 ∧
    guessFullName "Bonjour\nCordialement\nJean Dupont" "z" = "Jean Dupont" := by
  refine ⟨by decide, ?_⟩
  exact guessFullName_cordialement "Bonjour\nCordialement\nJean Dupont" "z" 1
    (by decide) (by decide) (by decide) (by decide)

/-- Claim C5, counterexample to the claim as stated: in a text whose line 0 is
"Cordialement" and whose line 2 ("Jean Dupont") lies within the next 5 lines,
guessFullName returns the earlier qualifying line "Marie Curie" instead. -/
theorem guessFullName_cordialement_cex :
    (linesOf ("Cordialement\nMarie Curie\nJean Dupont" : String).data)[0]? =
      some "Cordialement".data ∧
    (linesOf ("Cordialement\nMarie Curie\nJean Dupont" : String).data)[2]? =
      some "Jean Dupont".data ∧
    guessFullName "Cordialement\nMarie Curie\nJean Dupont" "x" ≠ "Jean Dupont" := by
  refine ⟨by decide, by decide, by decide⟩

/-- Claim C6: when no line matches a signature boundary and no line of the tail
window qualifies, guessFullName returns the supplied fallback unchanged (hence
the empty string when the fallback is empty). -/
theorem guessFullName_fallback : ∀ (text fb : String),
    (linesOf text.data).findIdx? isBoundary = none →
    (tailWindow (linesOf text.data)).find? lineQualifies = none →
    guessFullName text fb = fb := by
  intro text fb h1 h2
  unfold guessFullName windowOf
  rw [h1]
  simp only [h2]
  by_cases h : fb = ""
  · simp [h]
  · simp [h]

theorem guessFullName_fallback_witness :
    (linesOf ("hello there" : String).data).findIdx? isBoundary = none ∧
    guessFullName "hello there" "Bob B" = "Bob B" :=
  ⟨by decide, guessFullName_fallback "hello there" "Bob B" (by decide) (by decide)⟩

/-- Claim C3, counterexample to the claim as stated: htmlToText is not
idempotent on "&lt;b&gt;": the first pass decodes it to "<b>", which the second
pass strips to "". -/
theorem htmlToText_not_idempotent :
    htmlToText (htmlToText "&lt;b&gt;") ≠ htmlToText "&lt;b&gt;" := by decide

/-- Claim C7, counterexample to the claim as stated: for the input
"x>ab<style>ab</style>" the matched style block's content is ">ab", and the
normalized output "x>ab" contains ">ab" as a substring (assembled from the
text outside the block). -/
theorem htmlToText_styleContents_cex :
    styleContents "x>ab<style>ab</style>" = [">ab".data] ∧
    htmlToText "x>ab<style>ab</style>" = "x>ab" ∧
    ">ab".data <:+: (htmlToText "x>ab<style>ab</style>").data := by
  refine ⟨by decide, by decide, by decide⟩

/-- Claim C8: the contact payload derives givenName and surname by splitting
the supplied full name on whitespace: with at least two tokens, givenName is
the first token and surname the remaining tokens joined by single spaces;
with fewer than two tokens both stay empty (and displayName alone carries
the name, as the "Madonna" conjunct shows). -/
theorem createContactOnGraphBody_names :
    (∀ (displayName email phone : String),
      ((createContactOnGraphBody displayName email phone).givenName,
       (createContactOnGraphBody displayName email phone).surname) =
        match tokensOfStr displayName with
        | p0 :: p1 :: rest => (p0, String.intercalate " " (p1 :: rest))
        | _ => ("", "")) ∧
    (createContactOnGraphBody "Marie Curie" "" "").givenName = "Marie" ∧
    (createContactOnGraphBody "Marie Curie" "" "").surname = "Curie" ∧
    (createContactOnGraphBody "Madonna" "" "").givenName = "" ∧
    (createContactOnGraphBody "Madonna" "" "").surname = "" ∧
    (createContactOnGraphBody "Madonna" "" "").displayName = "Madonna" := by
  refine ⟨?_, by decide, by decide, by decide, by decide, by decide⟩
  intro n e p
  unfold createContactOnGraphBody
  rcases h : tokensOfStr n with _ | ⟨p0, _ | ⟨p1, rest⟩⟩ <;> simp [h]

/-- Claim C9: the payload's displayName is never the empty string: it is the
supplied display name when non-empty, else the supplied email when non-empty,
else the literal "Nouveau contact". -/
theorem createContactOnGraphBody_displayName : ∀ (n e p : String),
    (createContactOnGraphBody n e p).displayName ≠ "" ∧
    (n ≠ "" → (createContactOnGraphBody n e p).displayName = n) ∧
    (n = "" → e ≠ "" → (createContactOnGraphBody n e p).displayName = e) ∧
    (n = "" → e = "" → (createContactOnGraphBody n e p).displayName = "Nouveau contact") := by
  intro n e p
  have hd : (createContactOnGraphBody n e p).displayName =
      if n = "" then (if e = "" then "Nouveau contact" else e) else n := by
    unfold createContactOnGraphBody
    rcases h : tokensOfStr n with _ | ⟨p0, _ | ⟨p1, rest⟩⟩ <;>
      by_cases hn : n = "" <;> by_cases he : e = "" <;> simp [h, hn, he]
  rw [hd]
  by_cases hn : n = "" <;> by_cases he : e = "" <;> simp [hn, he]

/-! ### Claim C3: idempotence of htmlToText (helper lemmas, counterexample, amended theorem) -/

theorem mkData (s : String) : String.mk s.data = s := rfl

theorem toLowerChar_eq_lt {c : Char} (h : toLowerChar c = '<') : c = '<' := by
  unfold toLowerChar at h
  split at h <;> first | exact h | exact absurd h (by decide)

theorem ciStarts_lt_false {opn : List Char} {c : Char} {cs : List Char} (h : c ≠ '<') :
    ciStarts ('<' :: opn) (c :: cs) = false := by
  unfold ciStarts
  have hb : (toLowerChar c == toLowerChar '<') = false := by
    apply beq_eq_false_iff_ne.mpr
    intro he
    exact h (toLowerChar_eq_lt he)
  simp [hb]

theorem stripLoop_id {opn cls : List Char} :
    ∀ (fuel : Nat) (s : List Char), (∀ c ∈ s, c ≠ '<') →
      stripLoop '<' opn cls fuel s = s := by
  intro fuel
  induction fuel with
  | zero => intro s _; cases s <;> rfl
  | succ n ih =>
    intro s hs
    cases s with
    | nil => rfl
    | cons c t =>
      have hc : c ≠ '<' := hs c (List.mem_cons_self c t)
      unfold stripLoop
      rw [ciStarts_lt_false hc]
      simp only [Bool.false_eq_true, if_false]
      rw [ih t (fun x hx => hs x (List.mem_cons_of_mem c hx))]

theorem tagLoop_id :
    ∀ (fuel : Nat) (s : List Char), (∀ c ∈ s, c ≠ '<') → tagLoop fuel s = s := by
  intro fuel
  induction fuel with
  | zero => intro s _; cases s <;> rfl
  | succ n ih =>
    intro s hs
    cases s with
    | nil => rfl
    | cons c t =>
      have hc : (c == '<') = false := by
        apply beq_eq_false_iff_ne.mpr
        exact hs c (List.mem_cons_self c t)
      unfold tagLoop
      rw [hc]
      simp only [Bool.false_eq_true, if_false]
      rw [ih t (fun x hx => hs x (List.mem_cons_of_mem c hx))]

theorem replaceLit_id {pat rep : List Char} (hp : pat.head? = some '&') :
    ∀ (fuel : Nat) (s : List Char), (∀ c ∈ s, c ≠ '&') →
      replaceLit pat rep fuel s = s := by
  obtain ⟨ps, rfl⟩ : ∃ ps, pat = '&' :: ps := by
    cases pat with
    | nil => simp at hp
    | cons p ps =>
      simp only [List.head?_cons, Option.some.injEq] at hp
      exact ⟨ps, by rw [hp]⟩
  intro fuel
  induction fuel with
  | zero => intro s _; cases s <;> rfl
  | succ n ih =>
    intro s hs
    cases s with
    | nil => rfl
    | cons c t =>
      have hc : ('&' == c) = false := by
        apply beq_eq_false_iff_ne.mpr
        intro he
        exact hs c (List.mem_cons_self c t) he.symm
      unfold replaceLit
      simp only [List.isPrefixOf, hc, Bool.false_and, Bool.false_eq_true, if_false]
      rw [ih t (fun x hx => hs x (List.mem_cons_of_mem c hx))]

theorem collapseNlL_cons : ∀ (t : List Char) (c : Char),
    ∃ t', collapseNlL (c :: t) = c :: t' := by
  intro t
  induction t with
  | nil => intro c; exact ⟨[], rfl⟩
  | cons d r ih =>
    intro c
    unfold collapseNlL
    by_cases h : (c == '\n' && d == '\n') = true
    · obtain ⟨t', ht'⟩ := ih d
      rw [if_pos h]
      have h1 := (Bool.and_eq_true _ _).mp h
      have hc : c = d := by
        rw [beq_iff_eq.mp h1.1, beq_iff_eq.mp h1.2]
      exact ⟨t', by rw [ht', hc]⟩
    · rw [if_neg h]
      exact ⟨collapseNlL (d :: r), rfl⟩

theorem noAdjNl_collapseNlL : ∀ s : List Char, noAdjNl (collapseNlL s) = true := by
  intro s
  induction s using collapseNlL.induct with
  | case1 => rfl
  | case2 c => rfl
  | case3 c1 c2 rest h ih =>
    unfold collapseNlL
    rw [if_pos h]
    exact ih
  | case4 c1 c2 rest h ih =>
    unfold collapseNlL
    rw [if_neg h]
    obtain ⟨t', ht'⟩ := collapseNlL_cons rest c2
    rw [ht']
    unfold noAdjNl
    simp only [Bool.and_eq_true]
    have hx : (c1 == '\n' && c2 == '\n') = false := by
      revert h
      cases (c1 == '\n' && c2 == '\n') <;> simp
    constructor
    · simp [hx]
    · rw [← ht']
      exact ih

theorem collapseNlL_of_noAdjNl : ∀ s : List Char, noAdjNl s = true → collapseNlL s = s := by
  intro s
  induction s using collapseNlL.induct with
  | case1 => intro _; rfl
  | case2 c => intro _; rfl
  | case3 c1 c2 rest h ih =>
    intro hno
    unfold noAdjNl at hno
    simp only [Bool.and_eq_true, Bool.not_eq_true'] at hno
    rw [h] at hno
    simp at hno
  | case4 c1 c2 rest h ih =>
    intro hno
    unfold collapseNlL
    rw [if_neg h]
    unfold noAdjNl at hno
    rw [ih (((Bool.and_eq_true _ _).mp hno).2)]

theorem noAdjNl_tail {c : Char} {t : List Char} (h : noAdjNl (c :: t) = true) :
    noAdjNl t = true := by
  cases t with
  | nil => rfl
  | cons d r =>
    unfold noAdjNl at h
    exact ((Bool.and_eq_true _ _).mp h).2

theorem noAdjNl_dropWhile (p : Char → Bool) :
    ∀ s : List Char, noAdjNl s = true → noAdjNl (s.dropWhile p) = true := by
  intro s
  induction s with
  | nil => intro _; rfl
  | cons c t ih =>
    intro h
    unfold List.dropWhile
    by_cases hp : p c = true
    · rw [hp]
      exact ih (noAdjNl_tail h)
    · rw [Bool.not_eq_true] at hp
      rw [hp]
      exact h

theorem trimRightL_head {t : List Char} {x : Char} {xs : List Char}
    (h : trimRightL t = x :: xs) : ∃ t0, t = x :: t0 := by
  cases t with
  | nil => simp [trimRightL] at h
  | cons d r =>
    unfold trimRightL at h
    cases hr : trimRightL r with
    | nil =>
      rw [hr] at h
      by_cases hd : isJsSpace d = true
      · rw [if_pos hd] at h; simp at h
      · rw [if_neg hd] at h
        exact ⟨r, by rw [((List.cons.injEq _ _ _ _).mp h).1]⟩
    | cons y ys =>
      rw [hr] at h
      exact ⟨r, by rw [((List.cons.injEq _ _ _ _).mp h).1]⟩

theorem noAdjNl_trimRightL : ∀ s : List Char, noAdjNl s = true →
    noAdjNl (trimRightL s) = true := by
  intro s
  induction s with
  | nil => intro _; rfl
  | cons c t ih =>
    intro h
    unfold trimRightL
    cases hr : trimRightL t with
    | nil =>
      by_cases hc : isJsSpace c = true
      · rw [if_pos hc]; rfl
      · rw [if_neg hc]; rfl
    | cons x xs =>
      obtain ⟨t0, ht0⟩ := trimRightL_head hr
      have hnt : noAdjNl (x :: xs) = true := by
        rw [← hr]
        exact ih (noAdjNl_tail h)
      unfold noAdjNl
      simp only [Bool.and_eq_true]
      refine ⟨?_, hnt⟩
      rw [ht0] at h
      unfold noAdjNl at h
      exact (Bool.not_eq_true' _).mpr (Bool.not_eq_true' _ |>.mp (((Bool.and_eq_true _ _).mp h).1))

theorem trimRightL_idem : ∀ s : List Char, trimRightL (trimRightL s) = trimRightL s := by
  intro s
  induction s with
  | nil => rfl
  | cons c t ih =>
    have he : trimRightL (c :: t) =
        (match trimRightL t with
         | [] => if isJsSpace c then [] else [c]
         | l => c :: l) := rfl
    cases hr : trimRightL t with
    | nil =>
      rw [he, hr]
      by_cases hc : isJsSpace c = true
      · rw [if_pos hc]; rfl
      · rw [if_neg hc]
        show trimRightL [c] = [c]
        unfold trimRightL
        rw [if_neg hc]
        rfl
    | cons x xs =>
      rw [he, hr]
      have hxx : trimRightL (x :: xs) = x :: xs := by
        rw [← hr, ih, hr]
      have he2 : trimRightL (c :: x :: xs) =
          (match trimRightL (x :: xs) with
           | [] => if isJsSpace c then [] else [c]
           | l => c :: l) := rfl
      rw [he2, hxx]

theorem dropWhile_head_false (p : Char → Bool) :
    ∀ (s : List Char) {c : Char} {t : List Char}, s.dropWhile p = c :: t → p c = false := by
  intro s
  induction s with
  | nil => intro c t h; simp at h
  | cons d r ih =>
    intro c t h
    unfold List.dropWhile at h
    by_cases hd : p d = true
    · rw [hd] at h; exact ih h
    · rw [Bool.not_eq_true] at hd
      rw [hd] at h
      simp only at h
      rw [← ((List.cons.injEq _ _ _ _).mp h).1]
      exact hd

theorem trimL_idem : ∀ s : List Char, trimL (trimL s) = trimL s := by
  intro s
  unfold trimL
  cases hy : trimRightL (s.dropWhile isJsSpace) with
  | nil => rfl
  | cons x xs =>
    obtain ⟨t0, ht0⟩ := trimRightL_head hy
    have hx : isJsSpace x = false := dropWhile_head_false isJsSpace s ht0
    have hdw : (x :: xs).dropWhile isJsSpace = x :: xs := by
      unfold List.dropWhile
      rw [hx]
    rw [hdw, ← hy]
    exact trimRightL_idem _

theorem noAdjNl_trimL : ∀ s : List Char, noAdjNl s = true → noAdjNl (trimL s) = true := by
  intro s h
  exact noAdjNl_trimRightL _ (noAdjNl_dropWhile _ _ h)


theorem htmlToTextL_idem (x : List Char)
    (hmem : ∀ c ∈ htmlToTextL x, c ≠ '<' ∧ c ≠ '&') :
    htmlToTextL (htmlToTextL x) = htmlToTextL x := by
  have hlt : ∀ c ∈ htmlToTextL x, c ≠ '<' := fun c hc => (hmem c hc).1
  have hamp : ∀ c ∈ htmlToTextL x, c ≠ '&' := fun c hc => (hmem c hc).2
  have h1 : stripStyleL (htmlToTextL x) = htmlToTextL x := by
    unfold stripStyleL
    exact stripLoop_id _ _ hlt
  have h2 : stripScriptL (htmlToTextL x) = htmlToTextL x := by
    unfold stripScriptL
    exact stripLoop_id _ _ hlt
  have h3 : stripTagsL (htmlToTextL x) = htmlToTextL x := by
    unfold stripTagsL
    exact tagLoop_id _ _ hlt
  have h4 : decodeEntitiesL (htmlToTextL x) = htmlToTextL x := by
    have e1 : decodeNbspL (htmlToTextL x) = htmlToTextL x := by
      unfold decodeNbspL
      exact replaceLit_id (by decide) _ _ hamp
    have e2 : decodeAmpL (htmlToTextL x) = htmlToTextL x := by
      unfold decodeAmpL
      exact replaceLit_id (by decide) _ _ hamp
    have e3 : decodeLtL (htmlToTextL x) = htmlToTextL x := by
      unfold decodeLtL
      exact replaceLit_id (by decide) _ _ hamp
    have e4 : decodeGtL (htmlToTextL x) = htmlToTextL x := by
      unfold decodeGtL
      exact replaceLit_id (by decide) _ _ hamp
    unfold decodeEntitiesL
    rw [e1, e2, e3, e4]
  have hnn : noAdjNl (htmlToTextL x) = true := by
    unfold htmlToTextL
    exact noAdjNl_trimL _ (noAdjNl_collapseNlL _)
  have h5 : collapseNlL (htmlToTextL x) = htmlToTextL x := collapseNlL_of_noAdjNl _ hnn
  have h6 : trimL (htmlToTextL x) = htmlToTextL x := by
    conv_lhs => unfold htmlToTextL
    conv_rhs => unfold htmlToTextL
    exact trimL_idem _
  show trimL (collapseNlL (decodeEntitiesL (stripTagsL (stripScriptL (stripStyleL (htmlToTextL x)))))) = htmlToTextL x
  rw [h1, h2, h3, h4, h5, h6]


theorem dataMk (l : List Char) : (String.mk l).data = l := rfl

/-- Claim C3 (amended): htmlToText is idempotent on every input whose
normalized output contains neither '<' nor '&' (in particular on tag-free,
entity-free plain text). -/
theorem htmlToText_idem : ∀ h : String,
    ((htmlToText h).data.all (fun c => !(c == '<') && !(c == '&'))) = true →
    htmlToText (htmlToText h) = htmlToText h := by
  intro h hall
  have hmem : ∀ c ∈ htmlToTextL h.data, c ≠ '<' ∧ c ≠ '&' := by
    intro c hc
    have hx := List.all_eq_true.mp hall c hc
    simp only [Bool.and_eq_true, Bool.not_eq_true'] at hx
    exact ⟨beq_eq_false_iff_ne.mp hx.1, beq_eq_false_iff_ne.mp hx.2⟩
  unfold htmlToText
  rw [dataMk, htmlToTextL_idem h.data hmem]

theorem htmlToText_idem_witness :
    ((htmlToText "<p>Hello World</p>").data.all (fun c => !(c == '<') && !(c == '&'))) = true ∧
    htmlToText (htmlToText "<p>Hello World</p>") = htmlToText "<p>Hello World</p>" :=
  ⟨by decide, htmlToText_idem "<p>Hello World</p>" (by decide)⟩

/-! ### Claim C7: the style/script passes delete whole matched blocks -/

theorem ciStarts_decomp : ∀ (pat s : List Char), ciStarts pat s = true →
    pat.length ≤ s.length ∧
    (s.take pat.length).map toLowerChar = pat.map toLowerChar := by
  intro pat
  induction pat with
  | nil => intro s _; simp
  | cons p ps ih =>
    intro s h
    cases s with
    | nil => simp [ciStarts] at h
    | cons c cs =>
      unfold ciStarts at h
      have hh := (Bool.and_eq_true _ _).mp h
      have hc : toLowerChar c = toLowerChar p := beq_iff_eq.mp hh.1
      obtain ⟨hlen, hmap⟩ := ih cs hh.2
      constructor
      · simpa using hlen
      · simp only [List.length_cons, List.take_succ_cons, List.map_cons, hc, hmap]

theorem splitAtCi_spec {cls : List Char} : ∀ {s a ch r : List Char},
    splitAtCi cls s = some (a, ch, r) →
    s = a ++ (ch ++ r) ∧ ch.map toLowerChar = cls.map toLowerChar ∧ r.length ≤ s.length := by
  intro s
  induction s with
  | nil => intro a ch r h; simp [splitAtCi] at h
  | cons c t ih =>
    intro a ch r h
    unfold splitAtCi at h
    by_cases hci : ciStarts cls (c :: t) = true
    · rw [if_pos hci] at h
      simp only [Option.some.injEq, Prod.mk.injEq] at h
      obtain ⟨ha, hch, hr⟩ := h
      obtain ⟨hlen, hmap⟩ := ciStarts_decomp cls (c :: t) hci
      refine ⟨?_, ?_, ?_⟩
      · rw [← ha, ← hch, ← hr]
        simp [List.take_append_drop]
      · rw [← hch]; exact hmap
      · rw [← hr]
        simp [List.length_drop]
    · rw [if_neg hci] at h
      cases hs : splitAtCi cls t with
      | none => rw [hs] at h; simp at h
      | some v =>
        obtain ⟨a', ch', r'⟩ := v
        rw [hs] at h
        simp only [Option.some.injEq, Prod.mk.injEq] at h
        obtain ⟨ha, hch, hr⟩ := h
        obtain ⟨he, hmap, hlen⟩ := ih hs
        refine ⟨?_, ?_, ?_⟩
        · rw [← ha, ← hch, ← hr]
          simp only [List.cons_append]
          rw [← he]
        · rw [← hch]; exact hmap
        · rw [← hr]
          exact Nat.le_succ_of_le hlen

theorem stripSpec_loop (o : Char) (opn cls : List Char) :
    ∀ (fuel : Nat) (s : List Char), s.length ≤ fuel →
      StripSpec o opn cls s (stripLoop o opn cls fuel s) := by
  intro fuel
  induction fuel with
  | zero =>
    intro s hs
    have : s = [] := List.eq_nil_of_length_eq_zero (Nat.le_zero.mp hs)
    rw [this]
    exact StripSpec.nil
  | succ n ih =>
    intro s hs
    cases s with
    | nil => exact StripSpec.nil
    | cons c t =>
      have ht : t.length ≤ n := by simpa using hs
      by_cases hci : ciStarts (o :: opn) (c :: t) = true
      · cases hsp : splitAtCi cls (List.drop opn.length t) with
        | none =>
          unfold stripLoop
          rw [if_pos hci, hsp]
          exact StripSpec.keep c t _ (ih t ht)
        | some v =>
          obtain ⟨a, ch, r⟩ := v
          unfold stripLoop
          rw [if_pos hci, hsp]
          obtain ⟨hlen, hmap⟩ := ciStarts_decomp (o :: opn) (c :: t) hci
          obtain ⟨he, hchmap, hrlen⟩ := splitAtCi_spec hsp
          have hdecomp : c :: t = (c :: t).take (o :: opn).length ++ (a ++ (ch ++ r)) := by
            conv_lhs => rw [← List.take_append_drop (o :: opn).length (c :: t)]
            rw [List.length_cons, List.drop_succ_cons, he]
          have hr : r.length ≤ n := by
            calc r.length ≤ (List.drop opn.length t).length := hrlen
            _ ≤ t.length := by simp [List.length_drop]
            _ ≤ n := ht
          rw [hdecomp]
          exact StripSpec.dele _ a ch _ _ hmap hchmap (ih r hr)
      · unfold stripLoop
        rw [if_neg hci]
        exact StripSpec.keep c t _ (ih t ht)

/-- Claim C7 (amended): the style pass and the script pass each delete whole
matched blocks only: for every input there is a decomposition witnessing that
the output is the input with zero or more complete case-insensitive
OPEN...CLOSE blocks deleted (so every character of a matched block is removed;
the content string may still reappear assembled from surrounding text, as the
counterexample shows). -/
theorem stripBlocks_whole :
    (∀ s : List Char, StripSpec '<' "style".data "</style>".data s (stripStyleL s)) ∧
    (∀ s : List Char, StripSpec '<' "script".data "</script>".data s (stripScriptL s)) := by
  constructor
  · intro s
    unfold stripStyleL
    exact stripSpec_loop '<' "style".data "</style>".data s.length s (Nat.le_refl _)
  · intro s
    unfold stripScriptL
    exact stripSpec_loop '<' "script".data "</script>".data s.length s (Nat.le_refl _)

/-! ### Claim C2: separator-independent extraction of valid French numbers -/

theorem digitChar_isDigit : ∀ i : Fin 10, isDigitCh (digitChar i) = true := by decide

theorem digitChar_not_sep : ∀ i : Fin 10, isSepCh (digitChar i) = false := by decide

theorem nzChar_isNonZero : ∀ d : Fin 9, isNonZeroDigit (nzChar d) = true := by decide

theorem nzChar_not_space : ∀ d : Fin 9, isJsSpace (nzChar d) = false := by decide

theorem nzChar_not_sep : ∀ d : Fin 9, isSepCh (nzChar d) = false := by decide

theorem sepChar_is_sep : ∀ k : Fin 3, isSepCh (sepChar k) = true := by decide

theorem mg_complete : ∀ ps : List PhonePair,
    matchGroups ps.length (renderPairs ps) = some (renderPairs ps, []) := by
  intro ps
  induction ps with
  | nil => rfl
  | cons p ps ih =>
    have hrp : renderPairs (p :: ps) = renderPair p ++ renderPairs ps := by
      simp [renderPairs]
    cases hsep : p.sep with
    | some k =>
      have hs : renderPairs (p :: ps) =
          sepChar k :: digitChar p.hi :: digitChar p.lo :: renderPairs ps := by
        rw [hrp]
        simp [renderPair, hsep]
      rw [hs]
      show matchGroups (ps.length + 1)
        (sepChar k :: digitChar p.hi :: digitChar p.lo :: renderPairs ps) = _
      unfold matchGroups
      simp only [sepChar_is_sep, digitChar_isDigit, Bool.and_self, if_pos, ih]
    | none =>
      have hs : renderPairs (p :: ps) =
          digitChar p.hi :: digitChar p.lo :: renderPairs ps := by
        rw [hrp]
        simp [renderPair, hsep]
      rw [hs]
      show matchGroups (ps.length + 1)
        (digitChar p.hi :: digitChar p.lo :: renderPairs ps) = _
      unfold matchGroups
      cases hr : renderPairs ps with
      | nil =>
        simp only [hr] at ih
        simp only [hr, digitChar_isDigit, Bool.and_self, if_pos, ih]
      | cons r0 rt =>
        simp only [hr] at ih
        simp only [hr, digitChar_not_sep, digitChar_isDigit, Bool.false_and, Bool.and_self,
          if_pos, if_neg, ih]
        simp

theorem pairsOf_length (r : PhoneRep) : (pairsOf r).length = 4 := rfl

theorem mg4_complete (r : PhoneRep) :
    matchGroups 4 (renderPairs (pairsOf r)) = some (renderPairs (pairsOf r), []) := by
  have h := mg_complete (pairsOf r)
  rw [pairsOf_length] at h
  exact h

theorem matchD1_complete (r : PhoneRep) :
    matchD1Groups (nzChar r.d1 :: renderPairs (pairsOf r)) =
      some (nzChar r.d1 :: renderPairs (pairsOf r), []) := by
  simp [matchD1Groups, nzChar_isNonZero, mg4_complete]

theorem matchAfter33_complete_nospace (r : PhoneRep) :
    matchAfter33 (nzChar r.d1 :: renderPairs (pairsOf r)) =
      some (nzChar r.d1 :: renderPairs (pairsOf r), []) := by
  simp [matchAfter33, nzChar_not_space, matchD1_complete r]

theorem matchAfter33_complete_space (r : PhoneRep) :
    matchAfter33 (' ' :: nzChar r.d1 :: renderPairs (pairsOf r)) =
      some (' ' :: nzChar r.d1 :: renderPairs (pairsOf r), []) := by
  simp [matchAfter33, show isJsSpace ' ' = true by decide, matchD1_complete r]

theorem matchPhoneAt_complete (r : PhoneRep) :
    matchPhoneAt none (renderPhone r) = some (renderPhone r, []) := by
  cases hl : r.lead with
  | local0 =>
    have hs : renderPhone r = '0' :: nzChar r.d1 :: renderPairs (pairsOf r) := by
      unfold renderPhone
      rw [hl]
      rfl
    rw [hs]
    have hd1 := matchD1_complete r
    cases hp : renderPairs (pairsOf r) with
    | nil =>
      rw [hp] at hd1
      simp [matchPhoneAt, boundaryBefore, hd1]
    | cons a t =>
      rw [hp] at hd1
      simp [matchPhoneAt, boundaryBefore, hp, hd1, show (('0' : Char) == '+') = false by decide]
  | plus33 sp =>
    cases sp with
    | true =>
      have hs : renderPhone r = '+' :: '3' :: '3' :: ' ' :: nzChar r.d1 :: renderPairs (pairsOf r) := by
        unfold renderPhone
        rw [hl]
        rfl
      rw [hs]
      simp [matchPhoneAt, matchAfter33_complete_space r]
    | false =>
      have hs : renderPhone r = '+' :: '3' :: '3' :: nzChar r.d1 :: renderPairs (pairsOf r) := by
        unfold renderPhone
        rw [hl]
        rfl
      rw [hs]
      cases hp : renderPairs (pairsOf r) with
      | nil =>
        have h33 := matchAfter33_complete_nospace r
        rw [hp] at h33
        simp [matchPhoneAt, h33]
      | cons a t =>
        have h33 := matchAfter33_complete_nospace r
        rw [hp] at h33
        simp [matchPhoneAt, hp, h33]

theorem scanPhone_head {prev : Option Char} {c : Char} {t m r : List Char}
    (h : matchPhoneAt prev (c :: t) = some (m, r)) : scanPhone prev (c :: t) = some m := by
  unfold scanPhone
  rw [h]

theorem filter_renderPairs : ∀ ps : List PhonePair,
    (renderPairs ps).filter (fun c => !isSepCh c) = digitsOfPairs ps := by
  intro ps
  induction ps with
  | nil => rfl
  | cons p ps ih =>
    have hrp : renderPairs (p :: ps) = renderPair p ++ renderPairs ps := by
      simp [renderPairs]
    have hdp : digitsOfPairs (p :: ps) =
        digitChar p.hi :: digitChar p.lo :: digitsOfPairs ps := by
      simp [digitsOfPairs]
    rw [hrp, hdp, List.filter_append, ih]
    cases hsep : p.sep with
    | some k =>
      simp [renderPair, hsep, sepChar_is_sep, digitChar_not_sep]
    | none =>
      simp [renderPair, hsep, digitChar_not_sep]

theorem renderPhone_cons (r : PhoneRep) : ∃ c t, renderPhone r = c :: t := by
  cases hl : r.lead with
  | local0 => exact ⟨'0', _, by unfold renderPhone; rw [hl]; rfl⟩
  | plus33 sp => exact ⟨'+', _, by unfold renderPhone; rw [hl]; rfl⟩

theorem normalizePhoneL_render (r : PhoneRep) :
    normalizePhoneL (renderPhone r) = '0' :: nzChar r.d1 :: digitsOfPairs (pairsOf r) := by
  cases hl : r.lead with
  | local0 =>
    have hs : renderPhone r = '0' :: nzChar r.d1 :: renderPairs (pairsOf r) := by
      unfold renderPhone
      rw [hl]
      rfl
    rw [hs]
    have hf : ('0' :: nzChar r.d1 :: renderPairs (pairsOf r)).filter (fun c => !isSepCh c) =
        '0' :: nzChar r.d1 :: digitsOfPairs (pairsOf r) := by
      simp only [List.filter_cons]
      rw [filter_renderPairs]
      simp [nzChar_not_sep, show isSepCh '0' = false by decide]
    simp only [normalizePhoneL, hf]
    rw [if_neg ?hne]
    case hne =>
      simp only [List.take_succ_cons]
      intro hcontra
      have hh := ((List.cons.injEq _ _ _ _).mp hcontra).1
      exact absurd hh (by decide)
  | plus33 sp =>
    have hs : renderPhone r = '+' :: '3' :: '3' ::
        ((if sp then [' '] else []) ++ nzChar r.d1 :: renderPairs (pairsOf r)) := by
      unfold renderPhone
      rw [hl]
      cases sp <;> rfl
    rw [hs]
    have hf : ('+' :: '3' :: '3' ::
        ((if sp then [' '] else []) ++ nzChar r.d1 :: renderPairs (pairsOf r))).filter
          (fun c => !isSepCh c) =
        '+' :: '3' :: '3' :: nzChar r.d1 :: digitsOfPairs (pairsOf r) := by
      simp only [List.filter_cons, List.filter_append]
      rw [filter_renderPairs]
      cases sp <;>
        simp [nzChar_not_sep, show isSepCh '+' = false by decide,
          show isSepCh '3' = false by decide, show isSepCh ' ' = true by decide]
    simp only [normalizePhoneL, hf]
    simp [List.take_succ_cons, List.drop_succ_cons]

theorem extractPhoneFR_render (r : PhoneRep) :
    extractPhoneFR (String.mk (renderPhone r)) = canonicalPhone r := by
  obtain ⟨c, t, hct⟩ := renderPhone_cons r
  have hm : matchPhoneAt none (c :: t) = some (c :: t, []) := by
    rw [← hct]
    exact matchPhoneAt_complete r
  unfold extractPhoneFR
  rw [dataMk, hct, scanPhone_head hm]
  show normalizePhone (String.mk (c :: t)) = canonicalPhone r
  unfold normalizePhone
  rw [dataMk, ← hct, normalizePhoneL_render r]
  rfl

/-- Claim C2 (amended): for every valid French phone number in either the
local or the +33 form, with any mix of dot/space/hyphen separators,
extractPhoneFR applied to the number returns the canonical 10-digit
0-prefixed string, independently of the separator style; in particular both
spec examples normalize to "0612345678". -/
theorem extractPhoneFR_canonical :
    (∀ r : PhoneRep, extractPhoneFR (String.mk (renderPhone r)) = canonicalPhone r) ∧
    extractPhoneFR "06 12 34 56 78" = "0612345678" ∧
    extractPhoneFR "+33612345678" = "0612345678" :=
  ⟨extractPhoneFR_render, by decide, by decide⟩

/-- Claim C2, counterexample to the claim as stated: the text "a0612345678"
contains the valid number "0612345678" as a substring, yet extractPhoneFR
returns "" because the `\b0` alternative requires a word boundary before
the 0. -/
theorem extractPhoneFR_containing_cex :
    renderPhone phoneRepEx = "0612345678".data ∧
    canonicalPhone phoneRepEx = "0612345678" ∧
    "0612345678".data <:+: ("a0612345678" : String).data ∧
    extractPhoneFR "a0612345678" = "" := by
  refine ⟨by decide, by decide, by decide, by decide⟩

/-! ### Claim C10: shape of every non-empty extractPhoneFR result -/

theorem digit_not_sep {c : Char} (h : isDigitCh c = true) : isSepCh c = false := by
  simp only [isDigitCh, decide_eq_true_eq] at h
  unfold isSepCh
  have h1 : (c == '.') = false := by
    apply beq_eq_false_iff_ne.mpr
    rintro rfl
    exact absurd h (by decide)
  have h2 : (c == '-') = false := by
    apply beq_eq_false_iff_ne.mpr
    rintro rfl
    exact absurd h (by decide)
  have h3 : isJsSpace c = false := by
    unfold isJsSpace
    rw [decide_eq_false_iff_not]
    omega
  rw [h1, h2, h3]
  rfl

theorem nz_isDigit {c : Char} (h : isNonZeroDigit c = true) : isDigitCh c = true := by
  simp only [isNonZeroDigit, decide_eq_true_eq] at h
  simp only [isDigitCh, decide_eq_true_eq]
  omega

theorem digit_ne_plus {c : Char} (h : isDigitCh c = true) : c ≠ '+' := by
  rintro rfl
  exact absurd h (by decide)

theorem mg_plain_step {n : Nat} {c1 c2 : Char} {tail m' r' : List Char}
    (hd1 : isDigitCh c1 = true) (hd2 : isDigitCh c2 = true)
    (ihs : tail = m' ++ r' ∧ (m'.filter (fun c => !isSepCh c)).length = 2 * n ∧
      (∀ c ∈ m', isDigitCh c = true ∨ isSepCh c = true)) :
    c1 :: c2 :: tail = (c1 :: c2 :: m') ++ r' ∧
    ((c1 :: c2 :: m').filter (fun c => !isSepCh c)).length = 2 * (n + 1) ∧
    (∀ c ∈ c1 :: c2 :: m', isDigitCh c = true ∨ isSepCh c = true) := by
  obtain ⟨he, hlen, hall⟩ := ihs
  refine ⟨by simp [he], ?_, ?_⟩
  · simp [List.filter_cons, digit_not_sep hd1, digit_not_sep hd2, hlen]
    omega
  · intro c hc
    simp only [List.mem_cons] at hc
    rcases hc with rfl | rfl | hc
    · exact Or.inl hd1
    · exact Or.inl hd2
    · exact hall c hc

theorem mg_sep_step {n : Nat} {c0 c1 c2 : Char} {tail m' r' : List Char}
    (hs0 : isSepCh c0 = true) (hd1 : isDigitCh c1 = true) (hd2 : isDigitCh c2 = true)
    (ihs : tail = m' ++ r' ∧ (m'.filter (fun c => !isSepCh c)).length = 2 * n ∧
      (∀ c ∈ m', isDigitCh c = true ∨ isSepCh c = true)) :
    c0 :: c1 :: c2 :: tail = (c0 :: c1 :: c2 :: m') ++ r' ∧
    ((c0 :: c1 :: c2 :: m').filter (fun c => !isSepCh c)).length = 2 * (n + 1) ∧
    (∀ c ∈ c0 :: c1 :: c2 :: m', isDigitCh c = true ∨ isSepCh c = true) := by
  obtain ⟨he, hlen, hall⟩ := ihs
  refine ⟨by simp [he], ?_, ?_⟩
  · simp [List.filter_cons, hs0, digit_not_sep hd1, digit_not_sep hd2, hlen]
    omega
  · intro c hc
    simp only [List.mem_cons] at hc
    rcases hc with rfl | rfl | rfl | hc
    · exact Or.inr hs0
    · exact Or.inl hd1
    · exact Or.inl hd2
    · exact hall c hc

theorem mg_sound : ∀ (n : Nat) (s m r : List Char), matchGroups n s = some (m, r) →
    s = m ++ r ∧ (m.filter (fun c => !isSepCh c)).length = 2 * n ∧
    (∀ c ∈ m, isDigitCh c = true ∨ isSepCh c = true) := by
  intro n
  induction n with
  | zero =>
    intro s m r h
    unfold matchGroups at h
    by_cases hb : boundaryAfter s = true
    · rw [if_pos hb] at h
      simp only [Option.some.injEq, Prod.mk.injEq] at h
      obtain ⟨hm, hr⟩ := h
      subst hm
      subst hr
      refine ⟨rfl, rfl, ?_⟩
      intro c hc
      simp at hc
    · rw [if_neg hb] at h
      simp at h
  | succ n ih =>
    intro s m r h
    rcases s with _ | ⟨c1, s1⟩
    · simp [matchGroups] at h
    rcases s1 with _ | ⟨c2, s2⟩
    · simp [matchGroups] at h
    rcases s2 with _ | ⟨c3, rest⟩
    · -- two characters: only the plain alternative can apply
      simp only [matchGroups] at h
      by_cases hp : (isDigitCh c1 && isDigitCh c2) = true
      · rw [if_pos hp] at h
        have hp1 := (Bool.and_eq_true _ _).mp hp
        cases hmg : matchGroups n [] with
        | none => rw [hmg] at h; simp at h
        | some v =>
          obtain ⟨m', r'⟩ := v
          rw [hmg] at h
          simp only [Option.some.injEq, Prod.mk.injEq] at h
          obtain ⟨hm, hr⟩ := h
          subst hm
          subst hr
          exact mg_plain_step hp1.1 hp1.2 (ih [] m' r' hmg)
      · rw [if_neg hp] at h
        simp at h
    · -- at least three characters
      simp only [matchGroups] at h
      by_cases hsep : (isSepCh c1 && isDigitCh c2 && isDigitCh c3) = true
      · rw [if_pos hsep] at h
        have hs1 := (Bool.and_eq_true _ _).mp hsep
        have hs2 := (Bool.and_eq_true _ _).mp hs1.1
        cases hmg : matchGroups n rest with
        | some v =>
          obtain ⟨m', r'⟩ := v
          rw [hmg] at h
          simp only [Option.some.injEq, Prod.mk.injEq] at h
          obtain ⟨hm, hr⟩ := h
          subst hm
          subst hr
          exact mg_sep_step hs2.1 hs2.2 hs1.2 (ih rest m' r' hmg)
        | none =>
          rw [hmg] at h
          simp only [] at h
          -- the plain alternative, with tail c3 :: rest
          by_cases hp : (isDigitCh c1 && isDigitCh c2) = true
          · rw [if_pos hp] at h
            have hp1 := (Bool.and_eq_true _ _).mp hp
            cases hmg2 : matchGroups n (c3 :: rest) with
            | none => rw [hmg2] at h; simp at h
            | some v =>
              obtain ⟨m', r'⟩ := v
              rw [hmg2] at h
              simp only [Option.some.injEq, Prod.mk.injEq] at h
              obtain ⟨hm, hr⟩ := h
              subst hm
              subst hr
              exact mg_plain_step hp1.1 hp1.2 (ih (c3 :: rest) m' r' hmg2)
          · rw [if_neg hp] at h
            simp at h
      · rw [if_neg hsep] at h
        simp only [] at h
        by_cases hp : (isDigitCh c1 && isDigitCh c2) = true
        · rw [if_pos hp] at h
          have hp1 := (Bool.and_eq_true _ _).mp hp
          cases hmg2 : matchGroups n (c3 :: rest) with
          | none => rw [hmg2] at h; simp at h
          | some v =>
            obtain ⟨m', r'⟩ := v
            rw [hmg2] at h
            simp only [Option.some.injEq, Prod.mk.injEq] at h
            obtain ⟨hm, hr⟩ := h
            subst hm
            subst hr
            exact mg_plain_step hp1.1 hp1.2 (ih (c3 :: rest) m' r' hmg2)
        · rw [if_neg hp] at h
          simp at h

theorem space_is_sep {c : Char} (h : isJsSpace c = true) : isSepCh c = true := by
  unfold isSepCh
  rw [h]
  simp

theorem matchD1_sound {s m r : List Char} (h : matchD1Groups s = some (m, r)) :
    ∃ d m', m = d :: m' ∧ isNonZeroDigit d = true ∧
      (m'.filter (fun c => !isSepCh c)).length = 8 ∧
      (∀ c ∈ m', isDigitCh c = true ∨ isSepCh c = true) := by
  rcases s with _ | ⟨d, rest⟩
  · simp [matchD1Groups] at h
  · simp only [matchD1Groups] at h
    by_cases hd : isNonZeroDigit d = true
    · rw [if_pos hd] at h
      cases hmg : matchGroups 4 rest with
      | none => rw [hmg] at h; simp at h
      | some v =>
        obtain ⟨m', r'⟩ := v
        rw [hmg] at h
        simp only [Option.some.injEq, Prod.mk.injEq] at h
        obtain ⟨hm, hr⟩ := h
        obtain ⟨_, hlen, hall⟩ := mg_sound 4 rest m' r' hmg
        exact ⟨d, m', hm.symm, hd, by rw [hlen], hall⟩
    · rw [if_neg hd] at h
      simp at h

theorem matchAfter33_sound {s m r : List Char} (h : matchAfter33 s = some (m, r)) :
    ∃ pre d m', (pre = [] ∨ ∃ sp, pre = [sp] ∧ isJsSpace sp = true) ∧
      m = pre ++ d :: m' ∧ isNonZeroDigit d = true ∧
      (m'.filter (fun c => !isSepCh c)).length = 8 ∧
      (∀ c ∈ m', isDigitCh c = true ∨ isSepCh c = true) := by
  rcases s with _ | ⟨c, rest⟩
  · simp [matchAfter33] at h
  · simp only [matchAfter33] at h
    by_cases hsp : isJsSpace c = true
    · rw [if_pos hsp] at h
      cases hd1 : matchD1Groups rest with
      | some v =>
        obtain ⟨m1, r1⟩ := v
        rw [hd1] at h
        simp only [Option.some.injEq, Prod.mk.injEq] at h
        obtain ⟨hm, hr⟩ := h
        obtain ⟨d, m', hm1, hd, hlen, hall⟩ := matchD1_sound hd1
        refine ⟨[c], d, m', Or.inr ⟨c, rfl, hsp⟩, ?_, hd, hlen, hall⟩
        rw [← hm, hm1]
        rfl
      | none =>
        rw [hd1] at h
        obtain ⟨d, m', hm1, hd, hlen, hall⟩ := matchD1_sound h
        exact ⟨[], d, m', Or.inl rfl, by rw [hm1]; rfl, hd, hlen, hall⟩
    · rw [if_neg hsp] at h
      obtain ⟨d, m', hm1, hd, hlen, hall⟩ := matchD1_sound h
      exact ⟨[], d, m', Or.inl rfl, by rw [hm1]; rfl, hd, hlen, hall⟩

theorem matchPhoneAt_sound {prev : Option Char} {s m r : List Char}
    (h : matchPhoneAt prev s = some (m, r)) :
    ∃ pre d m', m = pre ++ d :: m' ∧ isNonZeroDigit d = true ∧
      (m'.filter (fun c => !isSepCh c)).length = 8 ∧
      (∀ c ∈ m', isDigitCh c = true ∨ isSepCh c = true) ∧
      ((∃ mid, (mid = [] ∨ ∃ sp, mid = [sp] ∧ isJsSpace sp = true) ∧
        pre = '+' :: '3' :: '3' :: mid) ∨ pre = ['0']) := by
  rcases s with _ | ⟨a, s1⟩
  · simp [matchPhoneAt] at h
  rcases s1 with _ | ⟨b, s2⟩
  · simp only [matchPhoneAt] at h
    by_cases h0 : (a == '0' && boundaryBefore prev) = true
    · rw [if_pos h0] at h
      cases hd1 : matchD1Groups [] with
      | none => rw [hd1] at h; simp at h
      | some v =>
        obtain ⟨m1, r1⟩ := v
        rw [hd1] at h
        simp only [Option.some.injEq, Prod.mk.injEq] at h
        obtain ⟨hm, hr⟩ := h
        obtain ⟨d, m', hm1, hd, hlen, hall⟩ := matchD1_sound hd1
        have ha : a = '0' := beq_iff_eq.mp ((Bool.and_eq_true _ _).mp h0).1
        refine ⟨['0'], d, m', ?_, hd, hlen, hall, Or.inr rfl⟩
        rw [← hm, hm1, ha]
        rfl
    · rw [if_neg h0] at h
      simp at h
  rcases s2 with _ | ⟨c, rest⟩
  · simp only [matchPhoneAt] at h
    by_cases h0 : (a == '0' && boundaryBefore prev) = true
    · rw [if_pos h0] at h
      cases hd1 : matchD1Groups [b] with
      | none => rw [hd1] at h; simp at h
      | some v =>
        obtain ⟨m1, r1⟩ := v
        rw [hd1] at h
        simp only [Option.some.injEq, Prod.mk.injEq] at h
        obtain ⟨hm, hr⟩ := h
        obtain ⟨d, m', hm1, hd, hlen, hall⟩ := matchD1_sound hd1
        have ha : a = '0' := beq_iff_eq.mp ((Bool.and_eq_true _ _).mp h0).1
        refine ⟨['0'], d, m', ?_, hd, hlen, hall, Or.inr rfl⟩
        rw [← hm, hm1, ha]
        rfl
    · rw [if_neg h0] at h
      simp at h
  · simp only [matchPhoneAt] at h
    by_cases habc : (a == '+' && b == '3' && c == '3') = true
    · rw [if_pos habc] at h
      have hh1 := (Bool.and_eq_true _ _).mp habc
      have hh2 := (Bool.and_eq_true _ _).mp hh1.1
      have ha : a = '+' := beq_iff_eq.mp hh2.1
      have hb : b = '3' := beq_iff_eq.mp hh2.2
      have hc : c = '3' := beq_iff_eq.mp hh1.2
      cases h33 : matchAfter33 rest with
      | some v =>
        obtain ⟨m1, r1⟩ := v
        rw [h33] at h
        simp only [Option.some.injEq, Prod.mk.injEq] at h
        obtain ⟨hm, hr⟩ := h
        obtain ⟨mid, d, m', hmid, hm1, hd, hlen, hall⟩ := matchAfter33_sound h33
        refine ⟨'+' :: '3' :: '3' :: mid, d, m', ?_, hd, hlen, hall,
          Or.inl ⟨mid, hmid, rfl⟩⟩
        rw [← hm, hm1, ha, hb, hc]
        rfl
      | none =>
        rw [h33] at h
        simp only [] at h
        by_cases h0 : (a == '0' && boundaryBefore prev) = true
        · rw [if_pos h0] at h
          cases hd1 : matchD1Groups (b :: c :: rest) with
          | none => rw [hd1] at h; simp at h
          | some v =>
            obtain ⟨m1, r1⟩ := v
            rw [hd1] at h
            simp only [Option.some.injEq, Prod.mk.injEq] at h
            obtain ⟨hm, hr⟩ := h
            obtain ⟨d, m', hm1, hd, hlen, hall⟩ := matchD1_sound hd1
            have ha0 : a = '0' := beq_iff_eq.mp ((Bool.and_eq_true _ _).mp h0).1
            refine ⟨['0'], d, m', ?_, hd, hlen, hall, Or.inr rfl⟩
            rw [← hm, hm1, ha0]
            rfl
        · rw [if_neg h0] at h
          simp at h
    · rw [if_neg habc] at h
      simp only [] at h
      by_cases h0 : (a == '0' && boundaryBefore prev) = true
      · rw [if_pos h0] at h
        cases hd1 : matchD1Groups (b :: c :: rest) with
        | none => rw [hd1] at h; simp at h
        | some v =>
          obtain ⟨m1, r1⟩ := v
          rw [hd1] at h
          simp only [Option.some.injEq, Prod.mk.injEq] at h
          obtain ⟨hm, hr⟩ := h
          obtain ⟨d, m', hm1, hd, hlen, hall⟩ := matchD1_sound hd1
          have ha0 : a = '0' := beq_iff_eq.mp ((Bool.and_eq_true _ _).mp h0).1
          refine ⟨['0'], d, m', ?_, hd, hlen, hall, Or.inr rfl⟩
          rw [← hm, hm1, ha0]
          rfl
      · rw [if_neg h0] at h
        simp at h

theorem scanPhone_sound : ∀ (s : List Char) (prev : Option Char) (m : List Char),
    scanPhone prev s = some m →
    ∃ prev' s' r, matchPhoneAt prev' s' = some (m, r) := by
  intro s
  induction s with
  | nil => intro prev m h; simp [scanPhone] at h
  | cons c t ih =>
    intro prev m h
    simp only [scanPhone] at h
    cases hm : matchPhoneAt prev (c :: t) with
    | some v =>
      obtain ⟨m1, r1⟩ := v
      rw [hm] at h
      simp only [Option.some.injEq] at h
      exact ⟨prev, c :: t, r1, by rw [hm, h]⟩
    | none =>
      rw [hm] at h
      exact ih (some c) m h

theorem filter_digits_all {m' : List Char}
    (hall : ∀ c ∈ m', isDigitCh c = true ∨ isSepCh c = true) :
    ∀ c ∈ m'.filter (fun c => !isSepCh c), isDigitCh c = true := by
  intro c hc
  rw [List.mem_filter] at hc
  rcases hall c hc.1 with hd | hs
  · exact hd
  · exact absurd hs (by simpa using hc.2)

theorem normalizePhoneL_local {d : Char} {m' : List Char}
    (hd : isNonZeroDigit d = true) :
    normalizePhoneL ('0' :: d :: m') = '0' :: d :: m'.filter (fun c => !isSepCh c) := by
  have hfil : ('0' :: d :: m').filter (fun c => !isSepCh c) =
      '0' :: d :: m'.filter (fun c => !isSepCh c) := by
    simp [List.filter_cons, digit_not_sep (nz_isDigit hd), show isSepCh '0' = false by decide]
  simp only [normalizePhoneL, hfil]
  rw [if_neg ?hne]
  case hne =>
    simp only [List.take_succ_cons]
    intro hcontra
    exact absurd ((List.cons.injEq _ _ _ _).mp hcontra).1 (by decide)

theorem normalizePhoneL_plus {mid : List Char} {d : Char} {m' : List Char}
    (hmid : mid = [] ∨ ∃ sp, mid = [sp] ∧ isJsSpace sp = true)
    (hd : isNonZeroDigit d = true) :
    normalizePhoneL ('+' :: '3' :: '3' :: (mid ++ d :: m')) =
      '0' :: d :: m'.filter (fun c => !isSepCh c) := by
  have hfil : ('+' :: '3' :: '3' :: (mid ++ d :: m')).filter (fun c => !isSepCh c) =
      '+' :: '3' :: '3' :: d :: m'.filter (fun c => !isSepCh c) := by
    rcases hmid with rfl | ⟨sp, rfl, hsp⟩
    · simp [List.filter_cons, digit_not_sep (nz_isDigit hd),
        show isSepCh '+' = false by decide, show isSepCh '3' = false by decide]
    · simp [List.filter_cons, List.filter_append, digit_not_sep (nz_isDigit hd),
        space_is_sep hsp,
        show isSepCh '+' = false by decide, show isSepCh '3' = false by decide]
  simp [normalizePhoneL, hfil]

/-- Claim C10: every non-empty extractPhoneFR result is exactly 10
characters: the digit 0, a digit 1-9, then eight more digits, and contains
no separator characters and no '+'. -/
theorem extractPhoneFR_shape : ∀ t : String, extractPhoneFR t ≠ "" →
    ∃ d ds, (extractPhoneFR t).data = '0' :: d :: ds ∧ isNonZeroDigit d = true ∧
      ds.length = 8 ∧ (∀ c ∈ ds, isDigitCh c = true) ∧
      (∀ c ∈ (extractPhoneFR t).data, isSepCh c = false ∧ c ≠ '+') := by
  intro t hne
  cases hs : scanPhone none t.data with
  | none =>
    exfalso
    apply hne
    unfold extractPhoneFR
    rw [hs]
  | some m =>
    have hE : (extractPhoneFR t).data = normalizePhoneL m := by
      unfold extractPhoneFR
      rw [hs]
      rfl
    obtain ⟨prev', s', r, hma⟩ := scanPhone_sound t.data none m hs
    obtain ⟨pre, d, m', hm, hd, hlen, hall, hpre⟩ := matchPhoneAt_sound hma
    have hnorm : normalizePhoneL m = '0' :: d :: m'.filter (fun c => !isSepCh c) := by
      rcases hpre with ⟨mid, hmid, rfl⟩ | rfl
      · rw [hm]
        simp only [List.cons_append]
        exact normalizePhoneL_plus hmid hd
      · rw [hm]
        simp only [List.cons_append, List.nil_append]
        exact normalizePhoneL_local hd
    refine ⟨d, m'.filter (fun c => !isSepCh c), by rw [hE, hnorm], hd, hlen, filter_digits_all hall, ?_⟩
    intro c hc
    rw [hE, hnorm] at hc
    simp only [List.mem_cons] at hc
    rcases hc with rfl | rfl | hc
    · exact ⟨by decide, by decide⟩
    · exact ⟨digit_not_sep (nz_isDigit hd), digit_ne_plus (nz_isDigit hd)⟩
    · have hdc : isDigitCh c = true := filter_digits_all hall c hc
      exact ⟨digit_not_sep hdc, digit_ne_plus hdc⟩

theorem extractPhoneFR_shape_witness :
    extractPhoneFR "appel: 06.12.34.56.78 merci" ≠ "" ∧
    (∃ d ds, (extractPhoneFR "appel: 06.12.34.56.78 merci").data = '0' :: d :: ds ∧
      isNonZeroDigit d = true ∧ ds.length = 8 ∧ (∀ c ∈ ds, isDigitCh c = true) ∧
      (∀ c ∈ (extractPhoneFR "appel: 06.12.34.56.78 merci").data,
        isSepCh c = false ∧ c ≠ '+')) :=
  ⟨by decide, extractPhoneFR_shape "appel: 06.12.34.56.78 merci" (by decide)⟩
